import Mathlib

/-!
Verification of the subtitle segmentation engine and its serializers
(`modules/core/models/stt/whisper/writer.py`).

Strings are modelled as `List Char` (Python `str`), times as `ℚ`
(exact rationals standing for the float seconds values), dictionary
key lookups that can raise `KeyError` as `Except PyErr`, and the
Python falsy-`or` defaulting of integer options as `pyOrDefault`.
-/

deriving instance DecidableEq for Except

namespace WhisperWriter

/-- A per-word timing entry, the element of a segment's `words` list:
the dict `{"word": ..., "start": ..., "end": ...}`.  The Python key
`end` is a reserved word in Lean, so the field is called `stop`. -/
structure WordTiming where
  word : List Char
  start : ℚ
  stop : ℚ
deriving DecidableEq

instance : Inhabited WordTiming := ⟨⟨[], 0, 0⟩⟩

/-- A transcription segment: the dict with keys `start`, `end`, `text`
and the optional key `words` (`none` models an absent key). -/
structure Segment where
  start : ℚ
  stop : ℚ
  text : List Char
  words : Option (List WordTiming)
deriving DecidableEq

instance : Inhabited Segment := ⟨⟨0, 0, [], none⟩⟩

/-- Segmentation options, the merge of the keyword arguments and the
`options` dict of `iterate_result` (writer.py lines 65-79). -/
structure SegOptions where
  max_line_width : Option ℕ := none
  max_line_count : Option ℕ := none
  highlight_words : Bool := false
  max_words_per_line : Option ℕ := none
deriving DecidableEq

/-- The error raised by a failing dictionary lookup (`KeyError`). -/
inductive PyErr where
  | keyError
deriving DecidableEq

/-- Python `x or d` for an optional non-negative int `x`: `None` and
the falsy `0` both fall through to the default (writer.py lines 81-82). -/
def pyOrDefault (o : Option ℕ) (d : ℕ) : ℕ :=
  match o with
  | none => d
  | some 0 => d
  | some (k + 1) => k + 1

/-- Python `str.strip()` restricted to ASCII whitespace: remove leading
and trailing whitespace characters. -/
def pyStrip (l : List Char) : List Char :=
  ((l.dropWhile Char.isWhitespace).reverse.dropWhile Char.isWhitespace).reverse

/-- Remove the line-break marker injected by the segmenter: a single
leading `'\n'`, if present. -/
def dropNl : List Char → List Char
  | [] => []
  | c :: rest => if c = '\n' then rest else c :: rest

/-- Python `str.replace("-->", "->")`: replace every non-overlapping
occurrence, scanning left to right (writer.py line 169). -/
def replaceArrows : List Char → List Char
  | '-' :: '-' :: '>' :: rest => '-' :: '>' :: replaceArrows rest
  | c :: rest => c :: replaceArrows rest
  | [] => []

/-- Fuel-driven worker for `chunksPos`; the fuel is the list length, so
the recursion is structural and reduces in the kernel. -/
def chunksFuel (k : ℕ) : ℕ → List α → List (List α)
  | _, [] => []
  | 0, l => [l]
  | fuel + 1, x :: xs => (x :: xs.take (k - 1)) :: chunksFuel k fuel (xs.drop (k - 1))

/-- Split a list into consecutive chunks of `k` elements (`k ≥ 1`; the
last chunk may be shorter).  This is the walk of writer.py lines 91-98
and 134: `words_count` is reassigned only when fewer than
`max_words_per_line` words remain, which happens at most once per
segment and exactly on the final chunk, so the slices
`words[chunk_index : chunk_index + words_count]` are the consecutive
`max_words_per_line`-sized chunks. -/
def chunksPos (k : ℕ) (l : List α) : List (List α) :=
  chunksFuel k l.length l

/-- The running state of the word walk of `iterate_subtitles`
(writer.py lines 85-89): current line length, line count of the cue in
progress, the buffered cue, and the last emitted word's start time. -/
structure WalkState where
  line_len : ℕ
  line_count : ℕ
  subtitle : List WordTiming
  last : ℚ
deriving DecidableEq

/-- One iteration of the word loop (writer.py lines 97-133).  Returns
the updated state and the list of cues flushed by this word (empty or a
singleton).  `long_pause` and `seg_break` are inlined in the two
conditions exactly as in the source. -/
def processWord (preserve_segments : Bool) (max_line_width : ℕ)
    (max_line_count : Option ℕ) (st : WalkState) (i : ℕ) (timing : WordTiming) :
    WalkState × List (List WordTiming) :=
  if 0 < st.line_len ∧ st.line_len + timing.word.length ≤ max_line_width
      ∧ ¬ (preserve_segments = false ∧ 3 < timing.start - st.last)
      ∧ ¬ (i = 0 ∧ st.subtitle ≠ [] ∧ preserve_segments = true) then
    -- line continuation (lines 112-113)
    ({ st with line_len := st.line_len + timing.word.length,
               subtitle := st.subtitle ++ [timing], last := timing.start }, [])
  else
    -- new line (lines 115-131): the word is stripped first
    let w := pyStrip timing.word
    if (st.subtitle ≠ [] ∧ max_line_count.isSome
          ∧ ((preserve_segments = false ∧ 3 < timing.start - st.last)
              ∨ max_line_count.getD 0 ≤ st.line_count))
        ∨ (i = 0 ∧ st.subtitle ≠ [] ∧ preserve_segments = true) then
      -- subtitle break (lines 123-126)
      ({ line_len := (pyStrip w).length, line_count := 1,
         subtitle := [{ timing with word := w }], last := timing.start },
       [st.subtitle])
    else if 0 < st.line_len then
      -- line break (lines 127-130)
      ({ st with line_len := (pyStrip ('\n' :: w)).length,
                 line_count := st.line_count + 1,
                 subtitle := st.subtitle ++ [{ timing with word := '\n' :: w }],
                 last := timing.start }, [])
    else
      ({ st with line_len := (pyStrip w).length,
                 subtitle := st.subtitle ++ [{ timing with word := w }],
                 last := timing.start }, [])

/-- Walk the words of one chunk, numbering them from `i` (the
`enumerate` of writer.py line 97). -/
def processWords (p : Bool) (mlw : ℕ) (mlc : Option ℕ) :
    WalkState → ℕ → List WordTiming → WalkState × List (List WordTiming)
  | st, _, [] => (st, [])
  | st, i, t :: rest =>
    match processWord p mlw mlc st i t with
    | (st1, out1) =>
      match processWords p mlw mlc st1 (i + 1) rest with
      | (st2, out2) => (st2, out1 ++ out2)

/-- Walk a segment's chunks in order; word numbering restarts at 0 for
each chunk (writer.py line 97). -/
def processChunks (p : Bool) (mlw : ℕ) (mlc : Option ℕ) :
    WalkState → List (List WordTiming) → WalkState × List (List WordTiming)
  | st, [] => (st, [])
  | st, c :: cs =>
    match processWords p mlw mlc st 0 c with
    | (st1, out1) =>
      match processChunks p mlw mlc st1 cs with
      | (st2, out2) => (st2, out1 ++ out2)

/-- Walk one segment's word list (writer.py lines 90-134). -/
def processSegment (p : Bool) (mlw : ℕ) (mlc : Option ℕ) (mwpl : ℕ)
    (st : WalkState) (ws : List WordTiming) : WalkState × List (List WordTiming) :=
  processChunks p mlw mlc st (chunksPos mwpl ws)

/-- Walk all segments and flush the in-progress cue at the very end
(writer.py lines 90-136). -/
def walkSegments (p : Bool) (mlw : ℕ) (mlc : Option ℕ) (mwpl : ℕ) :
    WalkState → List (List WordTiming) → List (List WordTiming)
  | st, [] => if st.subtitle = [] then [] else [st.subtitle]
  | st, ws :: rest =>
    match processSegment p mlw mlc mwpl st ws with
    | (st1, out) => out ++ walkSegments p mlw mlc mwpl st1 rest

/-- Worker for `get_start` (writer.py lines 10-14): scan segments for
the first word, raising `KeyError` on a segment without a `words` key;
the default is returned only when the scan exhausts all segments. -/
def getStartGo (dflt : Option ℚ) : List Segment → Except PyErr (Option ℚ)
  | [] => .ok dflt
  | s :: rest =>
    match s.words with
    | none => .error .keyError
    | some [] => getStartGo dflt rest
    | some (w :: _) => .ok (some w.start)

/-- `get_start` (writer.py lines 10-14): the first word's start across
all segments, defaulting to the first segment's start (or `None` for an
empty transcript). -/
def get_start (segments : List Segment) : Except PyErr (Option ℚ) :=
  getStartGo (segments.head?.map (fun s => s.start)) segments

/-- Read every segment's `words` key in order; the main loop of
`iterate_subtitles` (line 93) accesses `segment["words"]` for every
segment, so a single absent key makes the whole (fully consumed)
generator raise `KeyError`. -/
def extract_words : List Segment → Except PyErr (List (List WordTiming))
  | [] => .ok []
  | s :: rest =>
    match s.words with
    | none => .error .keyError
    | some ws => (extract_words rest).map (fun r => ws :: r)

/-- The generator `iterate_subtitles` (writer.py lines 84-136), as the
list of cues it yields: `last` is initialized from `get_start ... or
0.0` (line 89), then the segments are walked word by word. -/
def iterate_subtitles (preserve_segments : Bool) (mlw : ℕ) (mlc : Option ℕ)
    (mwpl : ℕ) (segments : List Segment) : Except PyErr (List (List WordTiming)) :=
  match get_start segments with
  | .error e => .error e
  | .ok st0 =>
    match extract_words segments with
    | .error e => .error e
    | .ok wordLists =>
      .ok (walkSegments preserve_segments mlw mlc mwpl
            ⟨0, 1, [], st0.getD 0⟩ wordLists)

/-- `iterate_subtitles` with the option preprocessing of
`iterate_result` (writer.py lines 75-82): `preserve_segments` is
computed from the original options, then `max_line_width` and
`max_words_per_line` get their falsy-or defaults of 1000. -/
def iterateSubtitlesOf (options : SegOptions) (segments : List Segment) :
    Except PyErr (List (List WordTiming)) :=
  iterate_subtitles (options.max_line_count.isNone || options.max_line_width.isNone)
    (pyOrDefault options.max_line_width 1000) options.max_line_count
    (pyOrDefault options.max_words_per_line 1000) segments

/-- The substitution `re.sub(r"^(\s*)(.*)$", r"\1<u>\2</u>", word)` of
writer.py line 155.  Without `re.MULTILINE`, `^` anchors only at the
start, `.` does not match `'\n'`, and `$` matches at the end of the
string or just before a single final `'\n'`.  Hence: the greedy `\s*`
takes the maximal leading whitespace run; the remainder is wrapped when
it is newline-free, or when its only newline is the final character
(which stays outside the wrapping); otherwise there is no match and the
word is unchanged. -/
def emphWord (w : List Char) : List Char :=
  let p := w.takeWhile Char.isWhitespace
  let r := w.dropWhile Char.isWhitespace
  if ¬ r.contains '\n' then
    p ++ "<u>".toList ++ r ++ "</u>".toList
  else if r.getLast? = some '\n' ∧ ¬ r.dropLast.contains '\n' then
    p ++ "<u>".toList ++ r.dropLast ++ "</u>".toList ++ ['\n']
  else
    w

/-- The word-highlighting loop of `iterate_result` (writer.py lines
144-162): `last` starts at the cue's formatted start; each word first
yields a gap entry when the formatted times differ, then an entry whose
text marks the word at the running `enumerate` index inside the full
word list. -/
def highlightLoop (fmt : ℚ → α) [DecidableEq α] (subtitle_text : List Char)
    (all_words : List (List Char)) :
    α → ℕ → List WordTiming → List (α × α × List Char)
  | _, _, [] => []
  | last, i, t :: rest =>
    let s := fmt t.start
    let e := fmt t.stop
    (if last = s then [] else [(last, s, subtitle_text)]) ++
    ((s, e, ((all_words.enum.map
        (fun p => if p.1 = i then emphWord p.2 else p.2)).flatten)) ::
      highlightLoop fmt subtitle_text all_words e (i + 1) rest)

/-- Turn the yielded subtitles into the entries of `iterate_result`
(writer.py lines 139-164): with highlighting each subtitle expands via
`highlightLoop`, otherwise one entry per subtitle with the first word's
start, last word's end and the concatenated word fragments. -/
def emit_subtitles (fmt : ℚ → α) [DecidableEq α] (highlight_words : Bool)
    (subs : List (List WordTiming)) : List (α × α × List Char) :=
  if highlight_words then
    (subs.map (fun subtitle =>
      highlightLoop fmt ((subtitle.map (fun t => t.word)).flatten)
        (subtitle.map (fun t => t.word))
        (fmt ((subtitle.headD default).start)) 0 subtitle)).flatten
  else
    subs.map (fun subtitle =>
      (fmt ((subtitle.headD default).start), fmt ((subtitle.getLastD default).stop),
       (subtitle.map (fun t => t.word)).flatten))

/-- The fallback cue of writer.py lines 166-170: one cue per segment,
text stripped and `-->` replaced by `->`. -/
def fallbackCue (fmt : ℚ → α) (segment : Segment) : α × α × List Char :=
  (fmt segment.start, fmt segment.stop, replaceArrows (pyStrip segment.text))

/-- `SubtitlesWriter.iterate_result` (writer.py lines 65-170).  `fmt`
stands for `self.format_timestamp`; the path is chosen by whether the
first segment carries a `words` key (line 138). -/
def iterate_result (fmt : ℚ → α) [DecidableEq α] (segments : List Segment)
    (options : SegOptions) : Except PyErr (List (α × α × List Char)) :=
  match segments with
  | [] => .ok []
  | s0 :: _ =>
    if s0.words.isSome then
      (iterateSubtitlesOf options segments).map
        (emit_subtitles fmt options.highlight_words)
    else
      .ok (segments.map (fallbackCue fmt))

/-- Left-pad the decimal digits of `n` with zeros to width `w`. -/
def padNum (w n : ℕ) : List Char :=
  let ds := Nat.toDigits 10 n
  List.replicate (w - ds.length) '0' ++ ds

/-- Modelled from the spec: `format_timestamp` is imported from
`whisper.utils` (writer.py line 7) and its implementation is not part
of this repository.  Spec 4.2: decompose into hours, minutes, whole
seconds and milliseconds (`round((seconds - floor(seconds)) * 1000)`);
render `HH:MM:SS<marker>mmm` when `always_include_hours` or `hours > 0`,
else `MM:SS<marker>mmm`, with two-digit hour/minute/second fields and a
three-digit millisecond field. -/
def format_timestamp (seconds : ℚ) (always_include_hours : Bool)
    (decimal_marker : List Char) : List Char :=
  let total : ℤ := ⌊seconds⌋
  let milliseconds : ℤ := round ((seconds - (total : ℚ)) * 1000)
  let hours : ℤ := total / 3600
  let minutes : ℤ := total / 60 % 60
  let secs : ℤ := total % 60
  (if always_include_hours = true ∨ 0 < hours then padNum 2 hours.toNat ++ [':'] else [])
    ++ padNum 2 minutes.toNat ++ [':'] ++ padNum 2 secs.toNat
    ++ decimal_marker ++ padNum 3 milliseconds.toNat

/-- `WriteVTT.write_result` (writer.py lines 180-191): the `WEBVTT`
header and a blank line (`print` adds the second newline), then per cue
`start --> end`, the text and a blank line.  WebVTT uses a period
decimal marker and omits hours below one hour
(`always_include_hours = False`). -/
def write_vtt (segments : List Segment) (options : SegOptions) :
    Except PyErr (List Char) :=
  (iterate_result (fun q => format_timestamp q false ['.']) segments options).map
    (fun cues =>
      "WEBVTT\n\n".toList ++
      (cues.map (fun c =>
        c.1 ++ " --> ".toList ++ c.2.1 ++ ['\n'] ++ c.2.2 ++ ['\n', '\n'])).flatten)

/-- The closed set of writers returned by the registry
(writer.py lines 51-235). -/
inductive Writer where
  | WriteTXT
  | WriteVTT
  | WriteSRT
  | WriteTSV
  | WriteJSON
deriving DecidableEq

/-- `get_writer` (writer.py lines 238-247): a dict lookup that raises
`KeyError(output_format)` for an unrecognized key; the error carries
the offending key. -/
def get_writer (output_format : List Char) : Except (List Char) Writer :=
  if output_format = "txt".toList then .ok .WriteTXT
  else if output_format = "vtt".toList then .ok .WriteVTT
  else if output_format = "srt".toList then .ok .WriteSRT
  else if output_format = "tsv".toList then .ok .WriteTSV
  else if output_format = "json".toList then .ok .WriteJSON
  else .error output_format

/-! Concrete transcripts used as counterexamples and witnesses.
Time values are written as integers or as explicitly constructed
rationals so that all evaluations reduce in the kernel. -/

/-- The rational one half (0.5 seconds). -/
def half : ℚ := ⟨1, 2, by decide, by decide⟩

/-- One segment, words `[{"Hello",0,0.5},{" world",0.5,1.0}]` (spec 8,
end-to-end example). -/
def helloSegs : List Segment :=
  [⟨0, 1, "Hello world".toList,
    some [⟨"Hello".toList, 0, half⟩, ⟨" world".toList, half, 1⟩]⟩]

/-- Two single-word segments; the second word carries a leading space. -/
def tTwo : List Segment :=
  [⟨0, 1, [], some [⟨"Hello".toList, 0, 1⟩]⟩,
   ⟨2, 3, [], some [⟨" world".toList, 2, 3⟩]⟩]

/-- One segment with two words and no pause longer than 3 seconds. -/
def tSplit : List Segment :=
  [⟨0, 2, [], some [⟨"a".toList, 0, 1⟩, ⟨" b".toList, 1, 2⟩]⟩]

/-- A wordless segment whose `end` precedes its `start`. -/
def tBackwards : List Segment := [⟨1, 0, "a".toList, none⟩]

/-- First segment has word timing, second lacks the `words` key. -/
def tMixed : List Segment :=
  [⟨0, 1, [], some [⟨"Hello".toList, 0, 1⟩]⟩,
   ⟨1, 2, "later".toList, none⟩]

/-- Normal form of an emitted cue word: the text with the injected
line-break marker removed and whitespace stripped, plus its timing. -/
def cueWordKey (t : WordTiming) : List Char × ℚ × ℚ :=
  (pyStrip (dropNl t.word), t.start, t.stop)

/-- Normal form of a source word: its whitespace-stripped text plus
its timing. -/
def srcWordKey (t : WordTiming) : List Char × ℚ × ℚ :=
  (pyStrip t.word, t.start, t.stop)

/-- How an emitted cue word relates to the source word it came from:
the text is unchanged, stripped, or stripped with the injected newline
marker, and the timing is untouched. -/
def wordRel (a b : WordTiming) : Prop :=
  (a.word = b.word ∨ a.word = pyStrip b.word ∨ a.word = '\n' :: pyStrip b.word) ∧
  a.start = b.start ∧ a.stop = b.stop

/-- The source words of a transcript in walked order (absent `words`
keys contribute nothing; the word path errors on them anyway). -/
def allSrcWords (segments : List Segment) : List WordTiming :=
  segments.flatMap (fun s => s.words.getD [])

/-- The highlight expansion as the spec phrases it (spec 4.1,
"Highlighting expansion"): walking the cue's words in order with the
already-passed word texts in `done`, each word `w` first yields a
plain entry covering the gap since `last` when that gap is non-empty,
then an entry over the word's own time window whose text joins the
passed words, the emphasized `w`, and the texts of the words still to
come. -/
def highlightCueSpec (subtitle_text : List Char) :
    ℚ → List (List Char) → List WordTiming → List (ℚ × ℚ × List Char)
  | _, _, [] => []
  | last, done, t :: rest =>
    (if last = t.start then [] else [(last, t.start, subtitle_text)]) ++
    ((t.start, t.stop,
        done.flatten ++ emphWord t.word ++ (rest.map (fun u => u.word)).flatten) ::
      highlightCueSpec subtitle_text t.stop (done ++ [t.word]) rest)

/-- Head of a `dropWhile` never satisfies the predicate. -/
theorem dropWhile_head?_not (p : α → Bool) :
    ∀ (l : List α) (c : α), (l.dropWhile p).head? = some c → p c = false := by
  intro l
  induction l with
  | nil => intro c h; simp at h
  | cons x xs ih =>
    intro c h
    by_cases hx : p x
    · rw [List.dropWhile_cons_of_pos hx] at h
      exact ih c h
    · rw [List.dropWhile_cons_of_neg hx] at h
      simp only [List.head?_cons, Option.some_inj] at h
      rw [← h]
      exact Bool.of_not_eq_true hx

/-- `dropWhile` is the identity when the head does not satisfy the
predicate. -/
theorem dropWhile_eq_self_of_head? (p : α → Bool) (l : List α)
    (h : ∀ c, l.head? = some c → p c = false) : l.dropWhile p = l := by
  cases l with
  | nil => rfl
  | cons x xs =>
    refine List.dropWhile_cons_of_neg ?_
    simp [h x rfl]

/-- A stripped string is a prefix of the string with leading
whitespace removed. -/
theorem pyStrip_prefix (l : List Char) :
    pyStrip l <+: l.dropWhile Char.isWhitespace := by
  unfold pyStrip
  have h := List.dropWhile_suffix (l := (l.dropWhile Char.isWhitespace).reverse)
    Char.isWhitespace
  have h2 := List.reverse_prefix.mpr h
  simpa using h2

/-- The head of a stripped string is not whitespace. -/
theorem pyStrip_head?_not (l : List Char) (c : Char)
    (h : (pyStrip l).head? = some c) : c.isWhitespace = false := by
  obtain ⟨r, hr⟩ := pyStrip_prefix l
  apply dropWhile_head?_not Char.isWhitespace l c
  rw [← hr]
  cases hs : pyStrip l with
  | nil => rw [hs] at h; simp at h
  | cons a t =>
    rw [hs] at h
    simp only [List.head?_cons, Option.some_inj] at h
    simp [hs, ← h]

/-- The last character of a stripped string is not whitespace. -/
theorem pyStrip_getLast?_not (l : List Char) (c : Char)
    (h : (pyStrip l).getLast? = some c) : c.isWhitespace = false := by
  unfold pyStrip at h
  rw [List.getLast?_reverse] at h
  exact dropWhile_head?_not Char.isWhitespace _ c h

/-- Stripping is idempotent. -/
theorem pyStrip_idem (l : List Char) : pyStrip (pyStrip l) = pyStrip l := by
  have h1 : (pyStrip l).dropWhile Char.isWhitespace = pyStrip l :=
    dropWhile_eq_self_of_head? _ _ (pyStrip_head?_not l)
  have h2 : (pyStrip l).reverse.dropWhile Char.isWhitespace = (pyStrip l).reverse := by
    refine dropWhile_eq_self_of_head? _ _ ?_
    intro c hc
    rw [List.head?_reverse] at hc
    exact pyStrip_getLast?_not l c hc
  show (((pyStrip l).dropWhile Char.isWhitespace).reverse.dropWhile
      Char.isWhitespace).reverse = pyStrip l
  rw [h1, h2, List.reverse_reverse]

/-- Stripping ignores a leading whitespace character. -/
theorem pyStrip_cons_ws (c : Char) (l : List Char) (hc : c.isWhitespace = true) :
    pyStrip (c :: l) = pyStrip l := by
  show (((c :: l).dropWhile Char.isWhitespace).reverse.dropWhile
      Char.isWhitespace).reverse = pyStrip l
  rw [List.dropWhile_cons_of_pos hc]
  rfl

/-- Removing the injected newline marker from an already-stripped word
does nothing. -/
theorem dropNl_pyStrip (l : List Char) : dropNl (pyStrip l) = pyStrip l := by
  cases hs : pyStrip l with
  | nil => rfl
  | cons c t =>
    have hc : c.isWhitespace = false := by
      apply pyStrip_head?_not l
      rw [hs]
      rfl
    have : c ≠ '\n' := by
      intro hcn
      rw [hcn] at hc
      simp at hc
    simp [dropNl, this]

/-- Stripping after removing the newline marker equals stripping the
original word. -/
theorem pyStrip_dropNl (l : List Char) : pyStrip (dropNl l) = pyStrip l := by
  cases l with
  | nil => rfl
  | cons c t =>
    by_cases hc : c = '\n'
    · subst hc
      simp only [dropNl, if_pos rfl]
      exact (pyStrip_cons_ws '\n' t (by decide)).symm
    · simp [dropNl, hc]


/-- `Forall₂` respects appending on both sides. -/
theorem forall₂_append {R : α → β → Prop} {l₁ l₃ : List α} {l₂ l₄ : List β}
    (h1 : List.Forall₂ R l₁ l₂) (h2 : List.Forall₂ R l₃ l₄) :
    List.Forall₂ R (l₁ ++ l₃) (l₂ ++ l₄) :=
  List.rel_append h1 h2

/-- A related pair of words has equal normal forms. -/
theorem cueWordKey_eq (a b : WordTiming) (h : wordRel a b) :
    cueWordKey a = srcWordKey b := by
  obtain ⟨hw, hs, he⟩ := h
  unfold cueWordKey srcWordKey
  rw [hs, he]
  rcases hw with h | h | h <;> rw [h]
  · rw [pyStrip_dropNl]
  · rw [dropNl_pyStrip, pyStrip_idem]
  · simp [dropNl, pyStrip_idem]

/-- Pointwise related lists have equal normal-form images. -/
theorem forall₂_map_key {A B : List WordTiming} (h : List.Forall₂ wordRel A B) :
    A.map cueWordKey = B.map srcWordKey := by
  induction h with
  | nil => rfl
  | cons hab hrest ih => simp only [List.map_cons, ih, cueWordKey_eq _ _ hab]

/-- Related lists have equal start sequences. -/
theorem forall₂_map_start {A B : List WordTiming} (h : List.Forall₂ wordRel A B) :
    A.map (fun t => t.start) = B.map (fun t => t.start) := by
  induction h with
  | nil => rfl
  | cons hab hrest ih => simp only [List.map_cons, ih, hab.2.1]

/-- Membership transfer along the relation. -/
theorem forall₂_mem {A B : List WordTiming} (h : List.Forall₂ wordRel A B) :
    ∀ a ∈ A, ∃ b ∈ B, wordRel a b := by
  induction h with
  | nil => intro a ha; simp at ha
  | cons hab hrest ih =>
    intro a ha
    rcases List.mem_cons.mp ha with rfl | ha
    · exact ⟨_, List.mem_cons_self _ _, hab⟩
    · obtain ⟨b, hb, hr⟩ := ih a ha
      exact ⟨b, List.mem_cons_of_mem _ hb, hr⟩

/-- Per-word step behaviour of the walk (writer.py lines 97-133): the
word is appended to the buffer with its text unchanged, stripped, or
newline-prefixed; a cue is flushed only at a subtitle break and is the
previous non-empty buffer; the buffer is never empty afterwards. -/
theorem processWord_spec (p : Bool) (mlw : ℕ) (mlc : Option ℕ) (st : WalkState)
    (i : ℕ) (t : WordTiming) :
    ∃ w, (w = t.word ∨ w = pyStrip t.word ∨ w = '\n' :: pyStrip t.word) ∧
      (((processWord p mlw mlc st i t).2 = [] ∧
         (processWord p mlw mlc st i t).1.subtitle = st.subtitle ++ [{ t with word := w }]) ∨
       ((processWord p mlw mlc st i t).2 = [st.subtitle] ∧ st.subtitle ≠ [] ∧
         (processWord p mlw mlc st i t).1.subtitle = [{ t with word := w }])) := by
  simp only [processWord]
  split_ifs with h1 h2 h3
  · exact ⟨t.word, Or.inl rfl, Or.inl ⟨rfl, by simp⟩⟩
  · refine ⟨pyStrip t.word, Or.inr (Or.inl rfl), Or.inr ⟨rfl, ?_, rfl⟩⟩
    rcases h2 with ⟨hne, _⟩ | ⟨_, hne, _⟩ <;> exact hne
  · exact ⟨'\n' :: pyStrip t.word, Or.inr (Or.inr rfl), Or.inl ⟨rfl, rfl⟩⟩
  · exact ⟨pyStrip t.word, Or.inr (Or.inl rfl), Or.inl ⟨rfl, rfl⟩⟩

/-- Walking a word list: the flushed cues and the final buffer are
related, in order, to a split of the source words; flushed cues are
non-empty; the buffer is non-empty or the state untouched. -/
theorem processWords_spec (p : Bool) (mlw : ℕ) (mlc : Option ℕ)
    (l : List WordTiming) : ∀ (st : WalkState) (i : ℕ) (src : List WordTiming),
    List.Forall₂ wordRel st.subtitle src →
    (∃ srcOut srcBuf, src ++ l = srcOut ++ srcBuf ∧
      List.Forall₂ wordRel (processWords p mlw mlc st i l).2.flatten srcOut ∧
      List.Forall₂ wordRel (processWords p mlw mlc st i l).1.subtitle srcBuf) ∧
    (∀ c ∈ (processWords p mlw mlc st i l).2, c ≠ []) ∧
    ((processWords p mlw mlc st i l).1.subtitle ≠ [] ∨ (processWords p mlw mlc st i l).1 = st) := by
  induction l with
  | nil =>
    intro st i src h
    exact ⟨⟨[], src, by simp, List.Forall₂.nil, by simpa [processWords] using h⟩,
      by simp [processWords], Or.inr rfl⟩
  | cons t rest ih =>
    intro st i src h
    rcases hpw : processWord p mlw mlc st i t with ⟨st1, out1⟩
    obtain ⟨w, hw, hcase⟩ := processWord_spec p mlw mlc st i t
    rw [hpw] at hcase
    simp only [processWords, hpw]
    have hrel1 : wordRel { t with word := w } t := ⟨hw, rfl, rfl⟩
    rcases hcase with ⟨hout1, hsub1⟩ | ⟨hout1, hne, hsub1⟩
    · have hrec := ih st1 (i + 1) (src ++ [t]) (by
        rw [hsub1]
        exact forall₂_append h (List.forall₂_cons.mpr ⟨hrel1, List.Forall₂.nil⟩))
      rcases hpr : processWords p mlw mlc st1 (i + 1) rest with ⟨st2, out2⟩
      rw [hpr] at hrec
      subst hout1
      obtain ⟨⟨srcOut, srcBuf, hsplit, hfo, hfb⟩, hne2, hst2⟩ := hrec
      refine ⟨⟨srcOut, srcBuf, ?_, by simpa using hfo, hfb⟩, by simpa using hne2, ?_⟩
      · rw [← hsplit]
        simp
      · rcases hst2 with hx | hx
        · exact Or.inl hx
        · rw [hx]
          exact Or.inl (by rw [hsub1]; simp)
    · have hrec := ih st1 (i + 1) [t] (by
        rw [hsub1]
        exact List.forall₂_cons.mpr ⟨hrel1, List.Forall₂.nil⟩)
      rcases hpr : processWords p mlw mlc st1 (i + 1) rest with ⟨st2, out2⟩
      rw [hpr] at hrec
      subst hout1
      obtain ⟨⟨srcOut, srcBuf, hsplit, hfo, hfb⟩, hne2, hst2⟩ := hrec
      refine ⟨⟨src ++ srcOut, srcBuf, ?_, ?_, hfb⟩, ?_, ?_⟩
      · rw [List.append_assoc, ← hsplit]
        simp
      · simpa using forall₂_append h hfo
      · intro c hc
        simp only [List.cons_append, List.nil_append, List.mem_cons] at hc
        rcases hc with rfl | hc
        · exact hne
        · exact hne2 c hc
      · rcases hst2 with hx | hx
        · exact Or.inl hx
        · rw [hx]
          exact Or.inl (by rw [hsub1]; simp)

/-- `chunksFuel` splits without losing or reordering elements. -/
theorem chunksFuel_flatten (k : ℕ) : ∀ (fuel : ℕ) (l : List α),
    (chunksFuel k fuel l).flatten = l := by
  intro fuel
  induction fuel with
  | zero => intro l; cases l <;> simp [chunksFuel]
  | succ n ih =>
    intro l
    cases l with
    | nil => simp [chunksFuel]
    | cons x xs => simp [chunksFuel, ih]

/-- `chunksPos` splits without losing or reordering elements. -/
theorem chunksPos_flatten (k : ℕ) (l : List α) : (chunksPos k l).flatten = l :=
  chunksFuel_flatten k l.length l

/-- Walking a list of chunks: same compositional invariant as
`processWords_spec`. -/
theorem processChunks_spec (p : Bool) (mlw : ℕ) (mlc : Option ℕ)
    (cs : List (List WordTiming)) : ∀ (st : WalkState) (src : List WordTiming),
    List.Forall₂ wordRel st.subtitle src →
    (∃ srcOut srcBuf, src ++ cs.flatten = srcOut ++ srcBuf ∧
      List.Forall₂ wordRel (processChunks p mlw mlc st cs).2.flatten srcOut ∧
      List.Forall₂ wordRel (processChunks p mlw mlc st cs).1.subtitle srcBuf) ∧
    (∀ c ∈ (processChunks p mlw mlc st cs).2, c ≠ []) ∧
    ((processChunks p mlw mlc st cs).1.subtitle ≠ [] ∨ (processChunks p mlw mlc st cs).1 = st) := by
  induction cs with
  | nil =>
    intro st src h
    exact ⟨⟨[], src, by simp, List.Forall₂.nil, by simpa [processChunks] using h⟩,
      by simp [processChunks], Or.inr rfl⟩
  | cons c cs ih =>
    intro st src h
    rcases hpw : processWords p mlw mlc st 0 c with ⟨st1, out1⟩
    have hw := processWords_spec p mlw mlc c st 0 src h
    rw [hpw] at hw
    obtain ⟨⟨srcOut1, srcBuf1, hsplit1, hfo1, hfb1⟩, hne1, hst1⟩ := hw
    simp only [processChunks, hpw]
    have hrec := ih st1 srcBuf1 hfb1
    rcases hpc : processChunks p mlw mlc st1 cs with ⟨st2, out2⟩
    rw [hpc] at hrec
    obtain ⟨⟨srcOut2, srcBuf2, hsplit2, hfo2, hfb2⟩, hne2, hst2⟩ := hrec
    refine ⟨⟨srcOut1 ++ srcOut2, srcBuf2, ?_, ?_, hfb2⟩, ?_, ?_⟩
    · simp only [List.flatten_cons, ← List.append_assoc, hsplit1]
      rw [List.append_assoc, hsplit2, List.append_assoc]
    · simpa using forall₂_append hfo1 hfo2
    · intro x hx
      rcases List.mem_append.mp hx with hx | hx
      · exact hne1 x hx
      · exact hne2 x hx
    · rcases hst2 with hx | hx
      · exact Or.inl hx
      · rw [hx]
        exact hst1

/-- Walking all segments: everything emitted (final flush included) is
related, in order, to the flattened source words, and every emitted cue
is non-empty. -/
theorem walkSegments_spec (p : Bool) (mlw : ℕ) (mlc : Option ℕ) (mwpl : ℕ)
    (wls : List (List WordTiming)) : ∀ (st : WalkState) (src : List WordTiming),
    List.Forall₂ wordRel st.subtitle src →
    List.Forall₂ wordRel (walkSegments p mlw mlc mwpl st wls).flatten (src ++ wls.flatten) ∧
    (∀ c ∈ walkSegments p mlw mlc mwpl st wls, c ≠ []) := by
  induction wls with
  | nil =>
    intro st src h
    simp only [walkSegments]
    by_cases hs : st.subtitle = []
    · rw [if_pos hs]
      rw [hs] at h
      have : src = [] := (List.forall₂_nil_left_iff.mp h)
      simp [this]
    · rw [if_neg hs]
      exact ⟨by simpa using h, by simp [hs]⟩
  | cons ws rest ih =>
    intro st src h
    rcases hps : processSegment p mlw mlc mwpl st ws with ⟨st1, out1⟩
    have hw := processChunks_spec p mlw mlc (chunksPos mwpl ws) st src h
    rw [show processChunks p mlw mlc st (chunksPos mwpl ws) = (st1, out1) from hps] at hw
    rw [chunksPos_flatten] at hw
    obtain ⟨⟨srcOut1, srcBuf1, hsplit1, hfo1, hfb1⟩, hne1, _⟩ := hw
    have hrec := ih st1 srcBuf1 hfb1
    simp only [walkSegments, hps]
    refine ⟨?_, ?_⟩
    · have : src ++ (ws :: rest).flatten = srcOut1 ++ (srcBuf1 ++ rest.flatten) := by
        simp only [List.flatten_cons, ← List.append_assoc, hsplit1]
      rw [this, List.flatten_append]
      exact forall₂_append hfo1 hrec.1
    · intro c hc
      rcases List.mem_append.mp hc with hc | hc
      · exact hne1 c hc
      · exact hrec.2 c hc

/-- Inversion of `extract_words`: success yields exactly the segments'
word lists, and then every segment carries a `words` key. -/
theorem extract_words_ok (segments : List Segment) :
    ∀ wls, extract_words segments = .ok wls →
      wls = segments.map (fun s => s.words.getD []) ∧ ∀ s ∈ segments, s.words.isSome := by
  induction segments with
  | nil =>
    intro wls h
    simp only [extract_words] at h
    cases h
    exact ⟨rfl, by simp⟩
  | cons s rest ih =>
    intro wls h
    simp only [extract_words] at h
    cases hs : s.words with
    | none => rw [hs] at h; cases h
    | some ws =>
      rw [hs] at h
      cases hr : extract_words rest with
      | error e => rw [hr] at h; cases h
      | ok wl' =>
        rw [hr] at h
        simp only [Except.map] at h
        cases h
        obtain ⟨h1, h2⟩ := ih wl' hr
        refine ⟨by simp [hs, h1], ?_⟩
        intro x hx
        rcases List.mem_cons.mp hx with rfl | hx
        · simp [hs]
        · exact h2 x hx

/-- `iterate_subtitles` on success: the emitted cues' words are
pointwise related to the source words in walked order, and every cue
is non-empty. -/
theorem iterate_subtitles_ok (preserve : Bool) (mlw : ℕ) (mlc : Option ℕ)
    (mwpl : ℕ) (segments : List Segment) (subs : List (List WordTiming))
    (h : iterate_subtitles preserve mlw mlc mwpl segments = .ok subs) :
    List.Forall₂ wordRel subs.flatten (allSrcWords segments) ∧
    ∀ c ∈ subs, c ≠ [] := by
  unfold iterate_subtitles at h
  cases hgs : get_start segments with
  | error e => rw [hgs] at h; cases h
  | ok st0 =>
    rw [hgs] at h
    cases hex : extract_words segments with
    | error e => rw [hex] at h; cases h
    | ok wls =>
      rw [hex] at h
      cases h
      obtain ⟨hwls, _⟩ := extract_words_ok segments wls hex
      have hw := walkSegments_spec preserve mlw mlc mwpl wls
        ⟨0, 1, [], st0.getD 0⟩ [] List.Forall₂.nil
      have hflat : wls.flatten = allSrcWords segments := by
        rw [hwls, allSrcWords, List.flatMap_def]
      rw [hflat] at hw
      exact ⟨by simpa using hw.1, hw.2⟩

/-- Claim C1, counterexample: on two single-word segments whose second
word carries a leading space, the segmenter strips the word when it
starts the new cue, so the concatenation of the emitted cue word texts
(with the injected newline markers removed) is `"Helloworld"`, while
the concatenation of the source words is `"Hello world"` — the two are
not equal, contrary to the claim's strict concatenation equality. -/
theorem c1_counterexample :
    (iterateSubtitlesOf {} tTwo).map
        (fun subs => ((subs.flatten.map (fun t => dropNl t.word)).flatten))
      = .ok "Helloworld".toList ∧
    ((allSrcWords tTwo).map (fun t => t.word)).flatten = "Hello world".toList ∧
    ("Helloworld".toList : List Char) ≠ "Hello world".toList :=
  ⟨by decide, by decide, by decide⟩

/-- Claim C1 (amended): for every transcript and options, on success of
the word walk, the emitted cue words — in order, after removing the
injected `'\n'` markers and stripping surrounding whitespace — coincide
with the source words stripped likewise, each keeping its own start and
end time: no word is dropped, duplicated or reordered; the only textual
change is the whitespace stripping applied to words that begin a new
line or cue. -/
theorem c1_amended (options : SegOptions) (segments : List Segment)
    (subs : List (List WordTiming))
    (h : iterateSubtitlesOf options segments = .ok subs) :
    subs.flatten.map cueWordKey = (allSrcWords segments).map srcWordKey :=
  forall₂_map_key (iterate_subtitles_ok _ _ _ _ _ _ h).1

/-- Witness for C1 at `tTwo`: the hypothesis is discharged by
evaluation and the conclusion is the concrete normal-form equality. -/
theorem c1_amended_witness :
    ([[({ word := "Hello".toList, start := 0, stop := 1 } : WordTiming)],
      [{ word := "world".toList, start := 2, stop := 3 }]] : List (List WordTiming)).flatten.map
        cueWordKey
      = (allSrcWords tTwo).map srcWordKey :=
  c1_amended {} tTwo _ (by decide)

/-- With `max_line_count` unset, a word that is not the first of its
chunk never flushes a cue: the subtitle-break condition needs either a
set `max_line_count` or `i = 0`. -/
theorem processWord_no_flush (p : Bool) (mlw : ℕ) (st : WalkState) (i : ℕ)
    (t : WordTiming) (hi : i ≠ 0) : (processWord p mlw none st i t).2 = [] := by
  simp only [processWord]
  split_ifs with h1 h2 h3
  · rfl
  · exfalso
    rcases h2 with ⟨_, hsome, _⟩ | ⟨hz, _, _⟩
    · simp at hsome
    · exact hi hz
  · rfl
  · rfl

/-- Every branch of the per-word step leaves a non-empty buffer. -/
theorem processWord_subtitle_ne (p : Bool) (mlw : ℕ) (mlc : Option ℕ)
    (st : WalkState) (i : ℕ) (t : WordTiming) :
    (processWord p mlw mlc st i t).1.subtitle ≠ [] := by
  simp only [processWord]
  split_ifs <;> simp

/-- In segment-preserving mode with `max_line_count` unset, the first
word of a chunk flushes the buffer exactly when it is non-empty. -/
theorem processWord_first (mlw : ℕ) (st : WalkState) (t : WordTiming) :
    (processWord true mlw none st 0 t).2 =
      if st.subtitle = [] then [] else [st.subtitle] := by
  simp only [processWord]
  split_ifs <;> first | rfl | tauto

/-- With `max_line_count` unset, the tail of a chunk flushes nothing. -/
theorem processWords_tail_no_flush (p : Bool) (mlw : ℕ) (l : List WordTiming) :
    ∀ (st : WalkState) (i : ℕ), i ≠ 0 → (processWords p mlw none st i l).2 = [] := by
  induction l with
  | nil => intro st i _; rfl
  | cons t rest ih =>
    intro st i hi
    rcases hpw : processWord p mlw none st i t with ⟨st1, out1⟩
    have h1 : out1 = [] := by
      have := processWord_no_flush p mlw st i t hi
      rw [hpw] at this
      exact this
    simp only [processWords, hpw]
    rcases hpr : processWords p mlw none st1 (i + 1) rest with ⟨st2, out2⟩
    have h2 : out2 = [] := by
      have := ih st1 (i + 1) (by omega)
      rw [hpr] at this
      exact this
    simp [h1, h2]

/-- Walking one whole chunk under `max_line_count = none` and
`preserve_segments = true` flushes exactly the previous buffer when it
is non-empty, and nothing otherwise. -/
theorem processWords_chunk_count (mlw : ℕ) (t : WordTiming)
    (rest : List WordTiming) (st : WalkState) :
    (processWords true mlw none st 0 (t :: rest)).2 =
      if st.subtitle = [] then [] else [st.subtitle] := by
  rcases hpw : processWord true mlw none st 0 t with ⟨st1, out1⟩
  rcases hpr : processWords true mlw none st1 1 rest with ⟨st2, out2⟩
  have h2 : out2 = [] := by
    have := processWords_tail_no_flush true mlw rest st1 1 (by omega)
    rw [hpr] at this
    exact this
  have h1 : out1 = if st.subtitle = [] then [] else [st.subtitle] := by
    have h := processWord_first mlw st t
    rw [hpw] at h
    exact h
  simp only [processWords, hpw, hpr, h1, h2]
  split_ifs <;> simp

/-- A non-empty word list leaves a non-empty buffer. -/
theorem processWords_subtitle_ne (p : Bool) (mlw : ℕ) (mlc : Option ℕ) :
    ∀ (l : List WordTiming) (st : WalkState) (i : ℕ), l ≠ [] →
      (processWords p mlw mlc st i l).1.subtitle ≠ []
  | [], _, _, h => absurd rfl h
  | t :: rest, st, i, _ => by
    rcases hpw : processWord p mlw mlc st i t with ⟨st1, out1⟩
    simp only [processWords, hpw]
    rcases hr : rest with _ | ⟨u, us⟩
    · simp only [processWords]
      have := processWord_subtitle_ne p mlw mlc st i t
      rw [hpw] at this
      exact this
    · rcases hpr : processWords p mlw mlc st1 (i + 1) (u :: us) with ⟨st2, out2⟩
      have := processWords_subtitle_ne p mlw mlc (u :: us) st1 (i + 1) (by simp)
      rw [hpr] at this
      simpa [hpr] using this

/-- A non-empty list of at most `k` elements is a single chunk. -/
theorem chunksPos_single (k : ℕ) (l : List α) (h0 : l ≠ []) (hk : l.length ≤ k) :
    chunksPos k l = [l] := by
  cases l with
  | nil => exact absurd rfl h0
  | cons x xs =>
    have hlen : xs.length ≤ k - 1 := by
      simp only [List.length_cons] at hk
      omega
    show chunksFuel k (x :: xs).length (x :: xs) = [x :: xs]
    simp only [List.length_cons, chunksFuel]
    rw [List.take_of_length_le hlen, List.drop_eq_nil_of_le hlen]
    cases xs <;> rfl

/-- Cue count of the walk in segment-preserving mode with
`max_line_count` unset: one cue per non-empty segment of at most
`max_words_per_line` words, plus the flush of a non-empty initial
buffer. -/
theorem walkSegments_count (mlw mwpl : ℕ) :
    ∀ (wls : List (List WordTiming)) (st : WalkState),
      (∀ ws ∈ wls, ws ≠ [] ∧ ws.length ≤ mwpl) →
      (walkSegments true mlw none mwpl st wls).length
        = wls.length + (if st.subtitle = [] then 0 else 1) := by
  intro wls
  induction wls with
  | nil =>
    intro st _
    simp only [walkSegments]
    split_ifs <;> simp
  | cons ws rest ih =>
    intro st h
    obtain ⟨hne, hlen⟩ := h ws (List.mem_cons_self _ _)
    have hchunks : chunksPos mwpl ws = [ws] := chunksPos_single mwpl ws hne hlen
    rcases hpw : processWords true mlw none st 0 ws with ⟨st1, out1⟩
    have hps : processSegment true mlw none mwpl st ws = (st1, out1) := by
      unfold processSegment
      rw [hchunks]
      simp [processChunks, hpw]
    simp only [walkSegments, hps]
    have hout1 : out1 = if st.subtitle = [] then [] else [st.subtitle] := by
      rcases ws with _ | ⟨t, ws'⟩
      · exact absurd rfl hne
      · have := processWords_chunk_count mlw t ws' st
        rw [hpw] at this
        exact this
    have hst1 : st1.subtitle ≠ [] := by
      have := processWords_subtitle_ne true mlw none ws st 0 hne
      rw [hpw] at this
      exact this
    have hrec := ih st1 (fun x hx => h x (List.mem_cons_of_mem _ hx))
    rw [if_neg hst1] at hrec
    simp only [List.length_append, hrec, hout1]
    split_ifs <;> simp_arith

/-- Worker existence: with every `words` key present, `getStartGo`
cannot raise. -/
theorem getStartGo_ok (dflt : Option ℚ) : ∀ (segments : List Segment),
    (∀ s ∈ segments, s.words.isSome) → ∃ v, getStartGo dflt segments = .ok v
  | [], _ => ⟨dflt, rfl⟩
  | s :: rest, h => by
    simp only [getStartGo]
    cases hs : s.words with
    | none =>
      have := h s (List.mem_cons_self _ _)
      rw [hs] at this
      simp at this
    | some ws =>
      cases ws with
      | nil => exact getStartGo_ok dflt rest fun x hx => h x (List.mem_cons_of_mem _ hx)
      | cons w _ => exact ⟨some w.start, rfl⟩

/-- With every `words` key present, `extract_words` succeeds and
returns exactly the word lists. -/
theorem extract_words_isSome (segments : List Segment)
    (h : ∀ s ∈ segments, s.words.isSome) :
    extract_words segments = .ok (segments.map (fun s => s.words.getD [])) := by
  induction segments with
  | nil => rfl
  | cons s rest ih =>
    simp only [extract_words]
    cases hs : s.words with
    | none =>
      have := h s (List.mem_cons_self _ _)
      rw [hs] at this
      simp at this
    | some ws =>
      rw [ih fun x hx => h x (List.mem_cons_of_mem _ hx)]
      simp [Except.map, hs]

/-- Defaulted option values are positive. -/
theorem pyOrDefault_pos (o : Option ℕ) : 1 ≤ pyOrDefault o 1000 := by
  rcases o with _ | _ | k <;> simp [pyOrDefault]

/-- Claim C2, counterexample: one segment of two words with
`max_words_per_line = 1` and all other options unset (hence
segment-preserving mode, and the word-start gap is 1 second ≤ 3): the
second word begins a new chunk, `i == 0` makes `seg_break` true, and
the single source segment yields two cues — chunk boundaries do
trigger cue breaks by themselves. -/
theorem c2_counterexample :
    (iterateSubtitlesOf { max_words_per_line := some 1 } tSplit).map List.length
      = .ok 2 ∧
    tSplit.length = 1 ∧ (2 : ℕ) ≠ 1 :=
  ⟨by decide, by decide, by decide⟩

/-- Claim C2 (amended): with `max_line_count` unset and every segment
carrying at least one and at most `max_words_per_line` (after
defaulting) words, the segmenter emits exactly one cue per source
segment.  The chunk-boundary clause of the original claim is dropped:
`seg_break` tests `i == 0` against the chunk-local index, so in
segment-preserving mode a chunk boundary inside a segment does break
the cue, and segments longer than `max_words_per_line` split.  (With
`max_line_count` set and only `max_line_width` unset — the other half
of the claimed mode — a line-count overflow can also split a segment,
so the amended statement requires `max_line_count` unset.) -/
theorem c2_amended (options : SegOptions) (segments : List Segment)
    (hmlc : options.max_line_count = none)
    (hws : ∀ s ∈ segments, ∃ ws, s.words = some ws ∧ ws ≠ [] ∧
        ws.length ≤ pyOrDefault options.max_words_per_line 1000) :
    (iterateSubtitlesOf options segments).map List.length = .ok segments.length := by
  have hsome : ∀ s ∈ segments, s.words.isSome := by
    intro s hs
    obtain ⟨ws, hws', -, -⟩ := hws s hs
    simp [hws']
  obtain ⟨v, hgs⟩ := getStartGo_ok (segments.head?.map fun s => s.start) segments hsome
  have hex := extract_words_isSome segments hsome
  unfold iterateSubtitlesOf iterate_subtitles get_start
  rw [hmlc, hgs, hex]
  simp only [Option.isNone_none, Bool.true_or, Except.map]
  congr 1
  rw [walkSegments_count]
  · simp
  · intro ws hx
    obtain ⟨s, hs, hmap⟩ := List.mem_map.mp hx
    obtain ⟨ws', hws', hne, hlen⟩ := hws s hs
    rw [hws'] at hmap
    simp only [Option.getD_some] at hmap
    subst hmap
    exact ⟨hne, hlen⟩

/-- Witness for C2 at `tTwo` with default options. -/
theorem c2_amended_witness :
    (iterateSubtitlesOf {} tTwo).map List.length = .ok tTwo.length :=
  c2_amended {} tTwo rfl (by
    intro s hs
    simp only [tTwo, List.mem_cons, List.not_mem_nil, or_false] at hs
    rcases hs with rfl | rfl
    · exact ⟨_, rfl, by decide, by decide⟩
    · exact ⟨_, rfl, by decide, by decide⟩)

/-- The head of a non-empty list with a default is a member. -/
theorem headD_mem_of_ne {b : List WordTiming} (h : b ≠ []) : b.headD default ∈ b := by
  rcases b with _ | ⟨x, xs⟩
  · exact absurd rfl h
  · simp

/-- A chain over a flattening restricts to each block. -/
theorem chain'_of_flatten {R : WordTiming → WordTiming → Prop}
    (blocks : List (List WordTiming))
    (hs : List.Chain' R blocks.flatten) : ∀ b ∈ blocks, List.Chain' R b := by
  induction blocks with
  | nil => simp
  | cons b rest ih =>
    rw [List.flatten_cons] at hs
    obtain ⟨hb, hrest, -⟩ := List.chain'_append.mp hs
    intro c hc
    rcases List.mem_cons.mp hc with rfl | hc
    · exact hb
    · exact ih hrest c hc

/-- In a non-empty block with non-decreasing start times and per-word
`start ≤ end`, the first word's start is at most the last word's end. -/
theorem head_start_le_last_stop (b : List WordTiming) (hbne : b ≠ [])
    (hcb : List.Chain' (fun a b : WordTiming => a.start ≤ b.start) b)
    (hse : ∀ w ∈ b, w.start ≤ w.stop) :
    (b.headD default).start ≤ (b.getLastD default).stop := by
  haveI : IsTrans WordTiming (fun a b : WordTiming => a.start ≤ b.start) :=
    ⟨fun a b c h1 h2 => le_trans h1 h2⟩
  rcases b with _ | ⟨x, xs⟩
  · exact absurd rfl hbne
  · have hp := List.chain'_iff_pairwise.mp hcb
    have hgl : (x :: xs).getLastD default = (x :: xs).getLast (by simp) := by
      rw [List.getLastD_eq_getLast?, List.getLast?_eq_getLast (x :: xs) (by simp)]
      rfl
    rw [hgl]
    simp only [List.headD_cons]
    have hmem := List.getLast_mem (l := x :: xs) (by simp)
    rcases List.mem_cons.mp hmem with heq | hmm
    · rw [heq]
      exact hse x (List.mem_cons_self _ _)
    · exact le_trans ((List.pairwise_cons.mp hp).1 _ hmm) (hse _ hmem)

/-- The first-word starts of consecutive non-empty blocks are
non-decreasing whenever the flattening has non-decreasing starts. -/
theorem blocks_chain (blocks : List (List WordTiming))
    (hne : ∀ b ∈ blocks, b ≠ [])
    (hsorted : List.Chain' (fun a b : WordTiming => a.start ≤ b.start) blocks.flatten) :
    List.Chain' (fun a b : ℚ => a ≤ b)
      (blocks.map (fun b => (b.headD default).start)) := by
  haveI : IsTrans WordTiming (fun a b : WordTiming => a.start ≤ b.start) :=
    ⟨fun a b c h1 h2 => le_trans h1 h2⟩
  induction blocks with
  | nil => simp
  | cons b rest ih =>
    have hp := List.chain'_iff_pairwise.mp hsorted
    rw [List.flatten_cons] at hp
    obtain ⟨hpb, hprest, hcross⟩ := List.pairwise_append.mp hp
    have ihres := ih (fun x hx => hne x (List.mem_cons_of_mem _ hx))
      (List.chain'_iff_pairwise.mpr hprest)
    rw [List.map_cons]
    refine List.chain'_cons'.mpr ⟨?_, ihres⟩
    intro y hy
    rcases rest with _ | ⟨r, rs⟩
    · simp at hy
    · simp only [List.map_cons, List.head?_cons, Option.mem_def, Option.some_inj] at hy
      subst hy
      exact hcross (b.headD default) (headD_mem_of_ne (hne b (List.mem_cons_self _ _)))
        (r.headD default)
        (List.mem_flatten_of_mem (List.mem_cons_self _ _)
          (headD_mem_of_ne (hne r (List.mem_cons_of_mem _ (List.mem_cons_self _ _)))))

/-- Claim C3, counterexample: a transcript with a single wordless
segment whose `end` (0) precedes its `start` (1) satisfies all the
input invariants the claim lists — the word conditions vacuously, the
segment ordering trivially — yet the fallback path copies the segment
times into the cue, producing the cue `(1, 0, "a")` with
`cue.start > cue.end`. -/
theorem c3_counterexample :
    (∀ s ∈ tBackwards, ∀ w ∈ s.words.getD [], w.start ≤ w.stop) ∧
    List.Chain' (fun a b : ℚ => a ≤ b) ((allSrcWords tBackwards).map (fun t => t.start)) ∧
    List.Chain' (fun a b : ℚ => a ≤ b) (tBackwards.map (fun s => s.start)) ∧
    iterate_result (fun q : ℚ => q) tBackwards {} = .ok [(1, 0, "a".toList)] ∧
    ¬ ((1 : ℚ) ≤ 0) :=
  ⟨by decide, by simp [allSrcWords, tBackwards], by simp [tBackwards], by decide, by decide⟩

/-- Claim C3 (amended): adding `end ≥ start` for the segments
themselves to the input invariants (needed because the fallback path
copies segment times into cues), every cue emitted without
highlighting — on either path — satisfies `cue.start ≤ cue.end`, and
the cue start times are non-decreasing. -/
theorem c3_amended (options : SegOptions) (segments : List Segment)
    (cues : List (ℚ × ℚ × List Char))
    (hhl : options.highlight_words = false)
    (hwse : ∀ s ∈ segments, ∀ w ∈ s.words.getD [], w.start ≤ w.stop)
    (hsorted : List.Chain' (fun a b : ℚ => a ≤ b)
      ((allSrcWords segments).map (fun t => t.start)))
    (hseg : List.Chain' (fun a b : ℚ => a ≤ b) (segments.map (fun s => s.start)))
    (hsegse : ∀ s ∈ segments, s.start ≤ s.stop)
    (hok : iterate_result (fun q : ℚ => q) segments options = .ok cues) :
    (∀ c ∈ cues, c.1 ≤ c.2.1) ∧
    List.Chain' (fun a b : ℚ => a ≤ b) (cues.map (fun c => c.1)) := by
  rcases segments with _ | ⟨s0, rest⟩
  · simp only [iterate_result, Except.ok.injEq] at hok
    subst hok
    exact ⟨by simp, by simp⟩
  · simp only [iterate_result] at hok
    by_cases hw0 : s0.words.isSome
    · rw [if_pos hw0] at hok
      cases hsub : iterateSubtitlesOf options (s0 :: rest) with
      | error e => rw [hsub] at hok; simp [Except.map] at hok
      | ok subs =>
        rw [hsub] at hok
        simp only [Except.map, Except.ok.injEq] at hok
        subst hok
        obtain ⟨hrel, hne⟩ := iterate_subtitles_ok _ _ _ _ _ _ hsub
        have hstarts : subs.flatten.map (fun t => t.start)
            = (allSrcWords (s0 :: rest)).map (fun t => t.start) :=
          forall₂_map_start hrel
        have hchain : List.Chain' (fun a b : WordTiming => a.start ≤ b.start)
            subs.flatten := by
          rw [← List.chain'_map (fun t : WordTiming => t.start)
            (R := fun a b : ℚ => a ≤ b), hstarts]
          exact hsorted
        have hsse : ∀ w ∈ subs.flatten, w.start ≤ w.stop := by
          intro a ha
          obtain ⟨b, hb, hr⟩ := forall₂_mem hrel a ha
          obtain ⟨s, hs, hbs⟩ := List.mem_flatMap.mp hb
          rw [hr.2.1, hr.2.2]
          exact hwse s hs b hbs
        simp only [emit_subtitles, hhl, if_neg Bool.false_ne_true]
        constructor
        · intro c hc
          obtain ⟨b, hb, hbc⟩ := List.mem_map.mp hc
          subst hbc
          exact head_start_le_last_stop b (hne b hb)
            (chain'_of_flatten subs hchain b hb)
            (fun w hw => hsse w (List.mem_flatten_of_mem hb hw))
        · have hmm : (subs.map (fun subtitle =>
              ((fun q : ℚ => q) ((subtitle.headD default).start),
               (fun q : ℚ => q) ((subtitle.getLastD default).stop),
               (subtitle.map (fun t => t.word)).flatten))).map (fun c => c.1)
              = subs.map (fun b => (b.headD default).start) := by
            rw [List.map_map]
            rfl
          rw [hmm]
          exact blocks_chain subs hne hchain
    · rw [if_neg hw0] at hok
      simp only [Except.ok.injEq] at hok
      subst hok
      constructor
      · intro c hc
        obtain ⟨s, hs, hsc⟩ := List.mem_map.mp hc
        subst hsc
        exact hsegse s hs
      · have hmm : ((s0 :: rest).map (fallbackCue fun q : ℚ => q)).map (fun c => c.1)
            = (s0 :: rest).map (fun s => s.start) := by
          rw [List.map_map]
          rfl
        rw [hmm]
        exact hseg

/-- Witness for C3 at `helloSegs` with default options. -/
theorem c3_amended_witness :
    (∀ c ∈ [((0 : ℚ), (1 : ℚ), "Hello world".toList)], c.1 ≤ c.2.1) ∧
    List.Chain' (fun a b : ℚ => a ≤ b)
      ([((0 : ℚ), (1 : ℚ), "Hello world".toList)].map (fun c => c.1)) :=
  c3_amended {} helloSegs _ rfl (by decide)
    (by
      simp only [allSrcWords, helloSegs, List.flatMap_cons, List.flatMap_nil,
        Option.getD_some, List.map_cons, List.map_nil, List.append_nil]
      exact List.chain'_cons.mpr ⟨by decide, List.chain'_singleton _⟩)
    (by simp [helloSegs]) (by decide) (by decide)

/-- Claim C5: path selection looks only at the first segment.  When the
transcript is empty or its first segment lacks the `words` key, the
segmenter emits one cue per segment, with the segment's own start and
end and its text stripped and with `-->` replaced by `->`; when the
first segment carries word timing, the entire transcript goes through
the word-timing path. -/
theorem c5_path_selection (options : SegOptions) (segments : List Segment) :
    ((∀ s0 ∈ segments.head?, s0.words = none) →
      iterate_result (fun q : ℚ => q) segments options =
        .ok (segments.map (fun s => (s.start, s.stop, replaceArrows (pyStrip s.text))))) ∧
    (∀ s0 ∈ segments.head?, s0.words.isSome →
      iterate_result (fun q : ℚ => q) segments options =
        (iterateSubtitlesOf options segments).map
          (emit_subtitles (fun q : ℚ => q) options.highlight_words)) := by
  constructor
  · intro h
    rcases segments with _ | ⟨s0, rest⟩
    · rfl
    · have h0 := h s0 rfl
      simp only [iterate_result, h0, Option.isSome_none, Bool.false_eq_true, if_false]
      rfl
  · intro s0 h0 hw
    rcases segments with _ | ⟨t0, rest⟩
    · simp at h0
    · simp only [Option.mem_def, List.head?_cons, Option.some_inj] at h0
      subst h0
      simp only [iterate_result, if_pos hw]

/-- Witness for C5: the fallback half at `tBackwards` (no `words` key),
the word-timing half at `helloSegs`. -/
theorem c5_path_selection_witness :
    iterate_result (fun q : ℚ => q) tBackwards {} =
      .ok (tBackwards.map (fun s => (s.start, s.stop, replaceArrows (pyStrip s.text)))) ∧
    iterate_result (fun q : ℚ => q) helloSegs {} =
      (iterateSubtitlesOf {} helloSegs).map
        (emit_subtitles (fun q : ℚ => q) ({} : SegOptions).highlight_words) :=
  ⟨(c5_path_selection {} tBackwards).1 (by decide),
   (c5_path_selection {} helloSegs).2 _ rfl (by decide)⟩

/-- A marker index below the enumeration base leaves every word
unchanged. -/
theorem enumFrom_map_id (i : ℕ) (l : List (List Char)) :
    ∀ n, i < n →
      (l.enumFrom n).map (fun p => if p.1 = i then emphWord p.2 else p.2) = l := by
  induction l with
  | nil => intro n _; rfl
  | cons x xs ih =>
    intro n hn
    simp only [List.enumFrom_cons, List.map_cons]
    rw [if_neg (by omega), ih (n + 1) (by omega)]

/-- Marking the word at the index right after `pre` emphasizes exactly
that word. -/
theorem enumFrom_map_emph (w : List Char) (post : List (List Char)) :
    ∀ (pre : List (List Char)) (n : ℕ),
      ((pre ++ w :: post).enumFrom n).map
          (fun p => if p.1 = n + pre.length then emphWord p.2 else p.2)
        = pre ++ emphWord w :: post := by
  intro pre
  induction pre with
  | nil =>
    intro n
    simp only [List.nil_append, List.enumFrom_cons, List.map_cons, List.length_nil,
      Nat.add_zero, eq_self_iff_true, if_true]
    rw [enumFrom_map_id n post (n + 1) (by omega)]
  | cons q pre' ih =>
    intro n
    have harith : n + (q :: pre').length = n + 1 + pre'.length := by
      simp only [List.length_cons]
      omega
    rw [harith]
    simp only [List.cons_append, List.enumFrom_cons, List.map_cons]
    rw [if_neg (by omega), ih (n + 1)]

/-- The highlight loop of the source (writer.py lines 144-162) computes
exactly the spec-style expansion: walking the words with the passed
texts accumulated in `done`, the enumerate index always equals the
number of passed words. -/
theorem highlightLoop_spec (full : List Char) :
    ∀ (todo : List WordTiming) (done : List (List Char)) (last : ℚ),
      highlightLoop (fun q : ℚ => q) full (done ++ todo.map (fun t => t.word))
          last done.length todo
        = highlightCueSpec full last done todo := by
  intro todo
  induction todo with
  | nil => intro done last; rfl
  | cons t rest ih =>
    intro done last
    have he := enumFrom_map_emph t.word (rest.map (fun t => t.word)) done 0
    simp only [Nat.zero_add] at he
    simp only [highlightLoop, highlightCueSpec, List.map_cons]
    have hw : done ++ t.word :: rest.map (fun t => t.word)
        = (done ++ [t.word]) ++ rest.map (fun t => t.word) := by
      simp
    have hflat : ((done ++ t.word :: rest.map (fun t => t.word)).enum.map
        (fun p => if p.1 = done.length then emphWord p.2 else p.2)).flatten
        = done.flatten ++ emphWord t.word ++ (rest.map (fun t => t.word)).flatten := by
      rw [show ((done ++ t.word :: rest.map (fun t => t.word)).enum)
          = ((done ++ t.word :: rest.map (fun t => t.word)).enumFrom 0) from rfl, he]
      simp
    have hrec : highlightLoop (fun q : ℚ => q) full
        (done ++ t.word :: rest.map (fun t => t.word)) t.stop (done.length + 1) rest
        = highlightCueSpec full t.stop (done ++ [t.word]) rest := by
      rw [hw, show done.length + 1 = (done ++ [t.word]).length by simp]
      exact ih (done ++ [t.word]) t.stop
    rw [hflat, hrec]

/-- Claim C6: with `highlight_words` on, the word-timing output is, cue
by cue, the claimed expansion: for each word, first a gap entry from
the previous end (initially the cue start) to the word's start carrying
the unmodified joined text, emitted only when that gap is non-empty,
then an entry over the word's own window whose text joins the passed
words, the emphasized current word, and the remaining words. -/
theorem c6_highlight (options : SegOptions) (segments : List Segment)
    (s0 : Segment) (subs : List (List WordTiming))
    (h0 : segments.head? = some s0) (hw : s0.words.isSome)
    (hhl : options.highlight_words = true)
    (hok : iterateSubtitlesOf options segments = .ok subs) :
    iterate_result (fun q : ℚ => q) segments options =
      .ok ((subs.map (fun st =>
        highlightCueSpec ((st.map (fun t => t.word)).flatten)
          ((st.headD default).start) [] st)).flatten) := by
  rcases segments with _ | ⟨t0, rest⟩
  · simp at h0
  · simp only [List.head?_cons, Option.some_inj] at h0
    subst h0
    simp only [iterate_result, if_pos hw, hok, Except.map, emit_subtitles, hhl, if_true]
    congr 1
    apply congrArg
    apply List.map_congr_left
    intro st _
    have h := highlightLoop_spec ((st.map (fun t => t.word)).flatten) st []
      ((st.headD default).start)
    simpa using h

/-- Witness for C6 at `helloSegs` with highlighting on. -/
theorem c6_highlight_witness :
    iterate_result (fun q : ℚ => q) helloSegs { highlight_words := true } =
      .ok ((([[⟨"Hello".toList, 0, half⟩, ⟨" world".toList, half, 1⟩]] :
          List (List WordTiming)).map
        (fun st => highlightCueSpec ((st.map (fun t => t.word)).flatten)
          ((st.headD default).start) [] st)).flatten) :=
  c6_highlight { highlight_words := true } helloSegs _ _ rfl (by decide) rfl (by decide)

/-- A segment without a `words` key anywhere in the transcript makes
`extract_words` raise `KeyError`. -/
theorem extract_words_error (segments : List Segment) (s : Segment)
    (hs : s ∈ segments) (hn : s.words = none) :
    extract_words segments = .error .keyError := by
  induction segments with
  | nil => simp at hs
  | cons t rest ih =>
    simp only [extract_words]
    rcases List.mem_cons.mp hs with rfl | hs'
    · rw [hn]
    · cases ht : t.words with
      | none => rfl
      | some ws => rw [ih hs']; rfl

/-- Claim C10: when the first segment carries word timing but some
segment lacks the `words` key, the word-timing path raises the lookup
error — every segment's `words` is accessed unconditionally — rather
than skipping the segment or falling back to per-segment cues. -/
theorem c10_missing_words (options : SegOptions) (segments : List Segment)
    (s0 sbad : Segment) (h0 : segments.head? = some s0) (hw : s0.words.isSome)
    (hbad : sbad ∈ segments) (hnone : sbad.words = none) :
    iterate_result (fun q : ℚ => q) segments options = .error .keyError := by
  rcases segments with _ | ⟨t0, rest⟩
  · simp at h0
  · simp only [List.head?_cons, Option.some_inj] at h0
    subst h0
    simp only [iterate_result, if_pos hw]
    have hex := extract_words_error (t0 :: rest) sbad hbad hnone
    unfold iterateSubtitlesOf iterate_subtitles
    cases hgs : get_start (t0 :: rest) with
    | error e =>
      cases e
      rfl
    | ok v =>
      rw [hex]
      rfl

/-- Witness for C10 at `tMixed`. -/
theorem c10_missing_words_witness :
    iterate_result (fun q : ℚ => q) tMixed {} = .error .keyError :=
  c10_missing_words {} tMixed ⟨0, 1, [], some [⟨"Hello".toList, 0, 1⟩]⟩
    ⟨1, 2, "later".toList, none⟩ rfl (by decide) (by decide) (by decide)

/-- The cue that `helloSegs` produces for any timestamp formatter. -/
theorem iterate_result_hello (fmt : ℚ → α) [DecidableEq α] :
    iterate_result fmt helloSegs {} = .ok [(fmt 0, fmt 1, "Hello world".toList)] := by
  have hsubs : iterateSubtitlesOf {} helloSegs =
      .ok [[⟨"Hello".toList, 0, half⟩, ⟨" world".toList, half, 1⟩]] := by decide
  simp only [iterate_result, helloSegs, Option.isSome_some, if_pos, hsubs, Except.map,
    emit_subtitles, if_neg, Bool.false_eq_true, not_false_iff, List.map_cons, List.map_nil]
  rfl

/-- Evaluation of the WebVTT timestamp of 0 seconds. -/
theorem fmt0_vtt : format_timestamp 0 false ['.'] = "00:00.000".toList := by
  have h1 : ⌊(0 : ℚ)⌋ = 0 := by norm_num
  have h2 : round (((0 : ℚ) - ((0 : ℤ) : ℚ)) * 1000) = 0 := by norm_num
  simp only [format_timestamp, h1, h2]
  decide

/-- Evaluation of the WebVTT timestamp of 1 second. -/
theorem fmt1_vtt : format_timestamp 1 false ['.'] = "00:01.000".toList := by
  have h1 : ⌊(1 : ℚ)⌋ = 1 := by norm_num
  have h2 : round (((1 : ℚ) - ((1 : ℤ) : ℚ)) * 1000) = 0 := by norm_num
  simp only [format_timestamp, h1, h2]
  decide

/-- The full WebVTT rendering of `helloSegs`, hours omitted. -/
theorem write_vtt_hello :
    write_vtt helloSegs {} =
      .ok ("WEBVTT\n\n00:00.000 --> 00:01.000\nHello world\n\n".toList) := by
  unfold write_vtt
  rw [iterate_result_hello (fun q => format_timestamp q false ['.'])]
  simp only [Except.map, List.map_cons, List.map_nil]
  rw [fmt0_vtt, fmt1_vtt]
  decide

/-- Claim C4, counterexample: the claimed WebVTT rendering includes an
hours field, but `WriteVTT` uses `always_include_hours = False` and
both timestamps are below one hour, so the rendered string omits the
hours digits. -/
theorem c4_counterexample :
    write_vtt helloSegs {} ≠
      .ok ("WEBVTT\n\n00:00:00.000 --> 00:00:01.000\nHello world\n\n".toList) := by
  rw [write_vtt_hello]
  decide

/-- Claim C4 (amended): the segmenter emits the single cue
`(0.0, 1.0, "Hello world")`, and the WebVTT writer renders exactly
`"WEBVTT\n\n00:00.000 --> 00:01.000\nHello world\n\n"`, the hours
digits being omitted below one hour. -/
theorem c4_amended :
    iterate_result (fun q : ℚ => q) helloSegs {} = .ok [(0, 1, "Hello world".toList)] ∧
    write_vtt helloSegs {} =
      .ok ("WEBVTT\n\n00:00.000 --> 00:01.000\nHello world\n\n".toList) :=
  ⟨by decide, write_vtt_hello⟩

/-- Claim C7, counterexample: with `max_words_per_line = 0` the
segmentation does not fail at all — the falsy-`or` defaulting coerces
the zero to 1000 and a normal cue is produced. -/
theorem c7_counterexample :
    iterate_result (fun q : ℚ => q) helloSegs { max_words_per_line := some 0 } =
      .ok [(0, 1, "Hello world".toList)] := by
  decide

/-- Claim C7 (amended): no `InvalidOptions` condition exists; a zero
`max_words_per_line` or `max_line_width` is silently coerced to the
default 1000 by the Python `or` defaulting, so segmentation behaves
exactly as with the value 1000. -/
theorem c7_amended (fmt : ℚ → α) [DecidableEq α] (segments : List Segment)
    (options : SegOptions) :
    iterate_result fmt segments { options with max_words_per_line := some 0 } =
      iterate_result fmt segments { options with max_words_per_line := some 1000 } ∧
    iterate_result fmt segments { options with max_line_width := some 0 } =
      iterate_result fmt segments { options with max_line_width := some 1000 } := by
  cases segments with
  | nil => exact ⟨rfl, rfl⟩
  | cons s0 rest => exact ⟨rfl, rfl⟩

/-- Claim C8: the registry returns the plain-text, WebVTT, SubRip,
tab-separated and raw-passthrough writers for the keys `txt`, `vtt`,
`srt`, `tsv`, `json`, and fails for every other key with an error
naming the offending key. -/
theorem c8_registry :
    (get_writer "txt".toList = .ok .WriteTXT ∧
     get_writer "vtt".toList = .ok .WriteVTT ∧
     get_writer "srt".toList = .ok .WriteSRT ∧
     get_writer "tsv".toList = .ok .WriteTSV ∧
     get_writer "json".toList = .ok .WriteJSON) ∧
    ∀ k : List Char,
      k ∉ ["txt".toList, "vtt".toList, "srt".toList, "tsv".toList, "json".toList] →
      get_writer k = .error k := by
  refine ⟨by decide, ?_⟩
  intro k hk
  unfold get_writer
  split_ifs with h1 h2 h3 h4 h5
  · exact absurd (by simp [h1]) hk
  · exact absurd (by simp [h2]) hk
  · exact absurd (by simp [h3]) hk
  · exact absurd (by simp [h4]) hk
  · exact absurd (by simp [h5]) hk
  · rfl

/-- Witness for C8 at the concrete unknown key `"xml"`. -/
theorem c8_registry_witness :
    "xml".toList ∉ ["txt".toList, "vtt".toList, "srt".toList, "tsv".toList, "json".toList] ∧
    get_writer "xml".toList = .error "xml".toList :=
  ⟨by decide, c8_registry.2 "xml".toList (by decide)⟩

/-- Claim C9: the timestamp formatter's two specified instances:
`format(3661.234, hours, ",") = "01:01:01,234"` and
`format(61.5, no-hours, ".") = "01:01.500"`. -/
theorem c9_format_timestamp :
    format_timestamp (3661.234 : ℚ) true [','] = "01:01:01,234".toList ∧
    format_timestamp (61.5 : ℚ) false ['.'] = "01:01.500".toList := by
  constructor
  · have h1 : ⌊(3661.234 : ℚ)⌋ = 3661 := by norm_num [Int.floor_eq_iff]
    have h2 : round (((3661.234 : ℚ) - ((3661 : ℤ) : ℚ)) * 1000) = 234 := by
      rw [round_eq]
      norm_num [Int.floor_eq_iff]
    simp only [format_timestamp, h1, h2]
    decide
  · have h1 : ⌊(61.5 : ℚ)⌋ = 61 := by norm_num [Int.floor_eq_iff]
    have h2 : round (((61.5 : ℚ) - ((61 : ℤ) : ℚ)) * 1000) = 500 := by
      rw [round_eq]
      norm_num [Int.floor_eq_iff]
    simp only [format_timestamp, h1, h2]
    decide

end WhisperWriter
